import Mathlib

set_option autoImplicit false

namespace LcMacroPipeline

/-! Shallow embedding of the `lc_macro_pipeline` package (source files
`macro_pipeline.py`, `retiler.py`, `remote_utils.py`, and the spec-described
`grid.py`).  External effects — the dask backend, the WebDAV transport and the
file systems — are modelled by explicit oracles, explicit state threading and
action traces; a Python exception is modelled as an error value. -/

/-! ## macro_pipeline.py -/

/-- An exception as captured by `sys.exc_info()[:2]` in
`MacroPipeline._run_task`: the exception kind (type) and value (instance). -/
structure ExcInfo (K V : Type) where
  kind : K
  val : V
  deriving DecidableEq

/-- A submitted task body (`task.run`): it either returns a value of type `A`
or raises an exception described by `ExcInfo K V`. -/
def TaskRun (K V A : Type) : Type := Except (ExcInfo K V) A

/-- `MacroPipeline._run_task`: runs `f` under a bare `except:` that catches
everything; returns the pair `(exctype, value)`, which stays `(None, None)`
when `f` returns normally — the return value of `f` is discarded by
`_ = f()`. -/
def run_task {K V A : Type} : TaskRun K V A → Option K × Option V
  | Except.ok _ => (none, none)
  | Except.error e => (some e.kind, some e.val)

/-- `MacroPipeline.run`: submits `_run_task task.run` for every task, gathers
the results in submission order (dask `gather` preserves the order of the
submitted futures), shuts the client down and returns the gathered list. -/
def MacroPipeline.run {K V A : Type} (tasks : List (TaskRun K V A)) :
    List (Option K × Option V) :=
  tasks.map run_task

/-- Outcome of `MacroPipeline.setup_client`: which backend got constructed, or
which exception was raised instead. -/
inductive ClientSetup (Opts : Type) where
  | localClient
  | sshClient (kwargs : Opts)
  | notImplementedError
  | runtimeError
  deriving DecidableEq

/-- `MacroPipeline.setup_client`: `'local'` builds a local client, `'ssh'`
builds an SSH cluster from the forwarded kwargs, `'slurm'` raises
`NotImplementedError` before touching any backend, and every other mode
raises `RuntimeError`. -/
def MacroPipeline.setup_client {Opts : Type} (mode : String) (kwargs : Opts) :
    ClientSetup Opts :=
  if mode = "local" then ClientSetup.localClient
  else if mode = "ssh" then ClientSetup.sshClient kwargs
  else if mode = "slurm" then ClientSetup.notImplementedError
  else ClientSetup.runtimeError

/-! ## Theorems for the Fan-out Executor -/

/-- C1: counterexample.  A task that succeeds with the genuine return value
`(some 0, some 0)` yields the entry `(none, none)` in `run`'s result list —
not its genuine return value, which `_run_task` discards via `_ = f()`. -/
theorem C1_success_entry_counterexample :
    MacroPipeline.run
        [(Except.ok (some 0, some 0) : TaskRun Nat Nat (Option Nat × Option Nat))] ≠
      [((some 0, some 0) : Option Nat × Option Nat)] := by
  decide

/-- C1 (amended): `run` never raises (it is total), returns exactly one entry
per submitted task in submission order, each failing task's entry is the
captured `(kind, value)` pair, and each succeeding task's entry is the
captured pair `(none, none)`; the succeeding task's own return value is
discarded. -/
theorem run_isolates_and_orders {K V A : Type} (tasks : List (TaskRun K V A)) :
    (MacroPipeline.run tasks).length = tasks.length ∧
    (∀ i k v, tasks.get? i = some (Except.error (ExcInfo.mk k v)) →
      (MacroPipeline.run tasks).get? i = some (some k, some v)) ∧
    (∀ i a, tasks.get? i = some (Except.ok a) →
      (MacroPipeline.run tasks).get? i = some (none, none)) := by
  refine ⟨List.length_map _ _, ?_, ?_⟩
  · intro i k v h
    simp only [List.get?_eq_getElem?] at h ⊢
    simp [MacroPipeline.run, List.getElem?_map, h, run_task]
  · intro i a h
    simp only [List.get?_eq_getElem?] at h ⊢
    simp [MacroPipeline.run, List.getElem?_map, h, run_task]

/-- C1 (amended), witnessed at a two-task batch: the failing task's entry is
its captured pair and the succeeding task's entry is `(none, none)`. -/
theorem run_isolates_and_orders_witness :
    (MacroPipeline.run
        [Except.error (ExcInfo.mk 7 9), (Except.ok 5 : TaskRun Nat Nat Nat)]).get? 0 =
      some (some 7, some 9) ∧
    (MacroPipeline.run
        [Except.error (ExcInfo.mk 7 9), (Except.ok 5 : TaskRun Nat Nat Nat)]).get? 1 =
      some (none, none) :=
  ⟨(run_isolates_and_orders _).2.1 0 7 9 rfl,
   (run_isolates_and_orders _).2.2 1 5 rfl⟩

/-- C8: `setup_client 'slurm'` always fails with `NotImplementedError` and
never constructs a backend, and `setup_client` with any mode other than
`'local'`, `'ssh'`, `'slurm'` always fails with `RuntimeError`. -/
theorem setup_client_slurm_unrecognized {Opts : Type} (kwargs : Opts) (mode : String)
    (h1 : mode ≠ "local") (h2 : mode ≠ "ssh") (h3 : mode ≠ "slurm") :
    MacroPipeline.setup_client "slurm" kwargs = ClientSetup.notImplementedError ∧
    MacroPipeline.setup_client mode kwargs = ClientSetup.runtimeError := by
  constructor
  · rfl
  · simp [MacroPipeline.setup_client, h1, h2, h3]

/-- C8, witnessed at mode `'pbs'` with trivial kwargs. -/
theorem setup_client_slurm_unrecognized_witness :
    MacroPipeline.setup_client "slurm" (0 : Nat) = ClientSetup.notImplementedError ∧
    MacroPipeline.setup_client "pbs" (0 : Nat) = ClientSetup.runtimeError :=
  setup_client_slurm_unrecognized 0 "pbs" (by decide) (by decide) (by decide)

/-! ## retiler.py -/

/-- Index of the last `'.'` in a list of characters, if any. -/
def lastDotIdx : List Char → Option Nat
  | [] => none
  | c :: cs =>
    match lastDotIdx cs with
    | some i => some (i + 1)
    | none => if c = '.' then some 0 else none

/-- `pathlib.PurePath` stem/suffix splitting of a file name: the name splits at
the last dot only when that dot is neither the first nor the last character;
otherwise the stem is the whole name and the suffix is empty. -/
def pyStemSuffix (name : String) : String × String :=
  let cs := name.data
  match lastDotIdx cs with
  | some i =>
    if 0 < i ∧ i < cs.length - 1 then (String.mk (cs.take i), String.mk (cs.drop i))
    else (name, "")
  | none => (name, "")

/-- `pathlib.PurePath.stem` of a file name. -/
def pyStem (name : String) : String := (pyStemSuffix name).1

/-- `pathlib.PurePath.suffix` of a file name. -/
def pySuffix (name : String) : String := (pyStemSuffix name).2

/-- Python `str.lower()` (restricted to per-character lowering). -/
def strLower (s : String) : String := String.mk (s.data.map Char.toLower)

/-- Python `str.startswith`: the first string's characters begin with the
second string's characters. -/
def startswith (p s : String) : Bool := List.isPrefixOf p.data s.data

/-- One entry of the output folder's listing (`output_folder.iterdir()`):
its file name and whether it is a regular file. -/
structure DirEntry where
  name : String
  isFile : Bool
  deriving DecidableEq

/-- The selection predicate of `Retiler.split_and_redistribute` (lines 44-48
of `retiler.py`): an entry is a produced tile iff it is a file, its suffix
equals the input file's suffix case-insensitively, its stem starts with the
input file's stem, and its name differs from the input file's name. -/
def tile_filter (input_name : String) (f : DirEntry) : Bool :=
  f.isFile && strLower (pySuffix f.name) == strLower (pySuffix input_name)
    && startswith (pyStem input_name) (pyStem f.name)
    && f.name != input_name

/-- `Retiler.split_and_redistribute`'s `tiles`: the entries of the output
folder that get moved (renamed) into `tile_i_j` cell directories. -/
def Retiler.tiles (input_name : String) (entries : List DirEntry) : List DirEntry :=
  entries.filter (tile_filter input_name)

/-- One candidate tile file seen by `Retiler.validate`'s glob
`tile_*/{stem}*` over the output folder: the name of the cell directory it
sits in, its file name, whether it is a regular file, and its point count as
read by `_get_details_pc_file`. -/
structure TileEntry where
  dirName : String
  fileName : String
  isFile : Bool
  points : Nat
  deriving DecidableEq

/-- The glob pattern `tile_*/{stem}*` of `Retiler.validate`: the containing
directory's name starts with `tile_` and the file's name starts with the
input file's stem. -/
def globMatch (stem : String) (e : TileEntry) : Bool :=
  startswith "tile_" e.dirName && startswith stem e.fileName

/-- The retile record produced by `Retiler.validate`. -/
structure RetileRecord where
  file : String
  redistributed_to : List String
  validated : Bool
  deriving DecidableEq

/-- `Retiler.validate` (after the input file's point count `parent_points`
has been read): iterates over the glob matches, summing the point counts of
those that are regular files and recording their cell directory names, and
sets `validated` iff the sum equals `parent_points`.  The function is total:
a mismatch is only recorded, never raised. -/
def Retiler.validate (input_file : String) (parent_points : Nat)
    (stem : String) (entries : List TileEntry) : RetileRecord :=
  let tiles := entries.filter (globMatch stem)
  let acc := tiles.foldl
    (fun (acc : Nat × List String) tile =>
      if tile.isFile then (acc.1 + tile.points, acc.2 ++ [tile.dirName]) else acc)
    (0, [])
  ⟨input_file, acc.2, parent_points == acc.1⟩

/-- The running sum of `Retiler.validate`'s loop equals the initial sum plus
the point counts of the regular files among the matches. -/
theorem validate_foldl_fst (l : List TileEntry) (a : Nat × List String) :
    (l.foldl
      (fun (acc : Nat × List String) tile =>
        if tile.isFile then (acc.1 + tile.points, acc.2 ++ [tile.dirName]) else acc)
      a).1
      = a.1 + ((l.filter (fun t => t.isFile)).map TileEntry.points).sum := by
  induction l generalizing a with
  | nil => simp
  | cons t ts ih =>
    by_cases h : t.isFile = true
    · simp [h, ih, Nat.add_assoc]
    · simp [h, ih, List.filter_cons, if_neg]

/-- C2: `Retiler.validate` sets `validated = true` iff the sum of the point
counts of all regular files matching `tile_*/{stem}*` across the cell
directories equals the input file's point count; being a total function, it
never raises on a mismatch — the outcome is only recorded. -/
theorem validate_validated_iff (input_file : String) (parent_points : Nat)
    (stem : String) (entries : List TileEntry) :
    (Retiler.validate input_file parent_points stem entries).validated = true ↔
      parent_points =
        ((entries.filter (fun e => e.isFile && globMatch stem e)).map
          TileEntry.points).sum := by
  unfold Retiler.validate
  simp only [validate_foldl_fst, Nat.zero_add, beq_iff_eq]
  rw [List.filter_filter]

/-- C9: every entry moved to a cell directory by `split_and_redistribute` is
an entry of the output folder that is a regular file with the input file's
suffix (case-insensitively), whose stem starts with the input file's stem and
whose name differs from the input file's name; in particular the input file
itself is never moved, even when it resides in the output folder. -/
theorem tiles_never_move_input (input_name : String) (entries : List DirEntry) :
    (∀ f, f ∈ Retiler.tiles input_name entries →
      f ∈ entries ∧ f.isFile = true ∧
      strLower (pySuffix f.name) = strLower (pySuffix input_name) ∧
      startswith (pyStem input_name) (pyStem f.name) = true ∧
      f.name ≠ input_name) ∧
    (∀ b, DirEntry.mk input_name b ∉ Retiler.tiles input_name entries) := by
  have h1 : ∀ f, f ∈ Retiler.tiles input_name entries →
      f ∈ entries ∧ f.isFile = true ∧
      strLower (pySuffix f.name) = strLower (pySuffix input_name) ∧
      startswith (pyStem input_name) (pyStem f.name) = true ∧
      f.name ≠ input_name := by
    intro f hf
    rw [Retiler.tiles, List.mem_filter] at hf
    obtain ⟨hmem, hp⟩ := hf
    simp only [tile_filter, Bool.and_eq_true, beq_iff_eq, bne_iff_ne, ne_eq] at hp
    exact ⟨hmem, hp.1.1.1, hp.1.1.2, hp.1.2, hp.2⟩
  exact ⟨h1, fun b hb => (h1 _ hb).2.2.2.2 rfl⟩

/-- C9, witnessed at an output listing that holds the input file itself, a
genuine tile and an unrelated file: the selected tile satisfies all four
conditions and the input file is not selected. -/
theorem tiles_never_move_input_witness :
    ((DirEntry.mk "points_1.las" true).isFile = true ∧
      strLower (pySuffix "points_1.las") = strLower (pySuffix "points.las") ∧
      startswith (pyStem "points.las") (pyStem "points_1.las") = true ∧
      "points_1.las" ≠ "points.las") ∧
    DirEntry.mk "points.las" true ∉ Retiler.tiles "points.las"
        [DirEntry.mk "points.las" true, DirEntry.mk "points_1.las" true,
         DirEntry.mk "other.laz" true] := by
  have hmem : DirEntry.mk "points_1.las" true ∈ Retiler.tiles "points.las"
      [DirEntry.mk "points.las" true, DirEntry.mk "points_1.las" true,
       DirEntry.mk "other.laz" true] := by
    rw [Retiler.tiles]
    exact List.mem_filter.mpr
      ⟨List.mem_cons_of_mem _ (List.mem_cons_self _ _), by rfl⟩
  refine ⟨?_, ?_⟩
  · have h := (tiles_never_move_input "points.las"
      [DirEntry.mk "points.las" true, DirEntry.mk "points_1.las" true,
       DirEntry.mk "other.laz" true]).1 (DirEntry.mk "points_1.las" true) hmem
    exact ⟨h.2.1, h.2.2.1, h.2.2.2.1, h.2.2.2.2⟩
  · exact (tiles_never_move_input "points.las"
      [DirEntry.mk "points.las" true, DirEntry.mk "points_1.las" true,
       DirEntry.mk "other.laz" true]).2 true

/-! ## grid.py (spec-modelled) -/

/-- Modelled from the spec: the repository's `Grid` class (`grid.py`) is not
among the provided source files.  Following §3 and §4.1 of the spec: 2D
bounds with `max > min` strictly on both axes and a positive square tile
count `n_tiles_side`; coordinates are modelled as rationals. -/
structure Grid where
  min_x : ℚ
  min_y : ℚ
  max_x : ℚ
  max_y : ℚ
  n_tiles_side : ℕ
  deriving DecidableEq

/-- Modelled from the spec: `Grid.setup` validates `max > min` on both axes
and `n_tiles_side ≥ 1`, failing with a configuration error (`none`)
otherwise. -/
def Grid.setup (min_x min_y max_x max_y : ℚ) (n_tiles_side : ℕ) : Option Grid :=
  if min_x < max_x ∧ min_y < max_y ∧ 1 ≤ n_tiles_side then
    some (Grid.mk min_x min_y max_x max_y n_tiles_side)
  else none

/-- Modelled from the spec: the per-axis tile size `(max - min) / n_tiles_side`
along the x axis. -/
def Grid.tile_width (g : Grid) : ℚ := (g.max_x - g.min_x) / g.n_tiles_side

/-- Modelled from the spec: the per-axis tile size `(max - min) / n_tiles_side`
along the y axis. -/
def Grid.tile_height (g : Grid) : ℚ := (g.max_y - g.min_y) / g.n_tiles_side

/-- Modelled from the spec: the clamp rule — a computed index equal to
`n_tiles_side` (a point exactly on the max edge) is clamped to
`n_tiles_side - 1`; no other boundary clamp is performed. -/
def clampIndex (n : ℕ) (i : ℤ) : ℤ := if i = n then n - 1 else i

/-- Modelled from the spec: `Grid.get_tile_index` floor-divides the offset
from `min` by the tile size on each axis and applies the max-edge clamp. -/
def Grid.get_tile_index (g : Grid) (x y : ℚ) : ℤ × ℤ :=
  (clampIndex g.n_tiles_side (Rat.floor ((x - g.min_x) / g.tile_width)),
   clampIndex g.n_tiles_side (Rat.floor ((y - g.min_y) / g.tile_height)))

/-- `Rat.floor` agrees with the floor of the `FloorRing` structure on `ℚ`. -/
theorem ratFloor_eq_intFloor (q : ℚ) : Rat.floor q = ⌊q⌋ :=
  (Rat.floor_def' q).trans Rat.floor_def.symm

/-- On one axis with valid bounds, the clamped floor index of any coordinate
in the closed interval lies in `[0, n - 1]`. -/
theorem clampIndex_floor_mem (lo hi x : ℚ) (n : ℕ) (hlt : lo < hi) (hn : 1 ≤ n)
    (h1 : lo ≤ x) (h2 : x ≤ hi) :
    0 ≤ clampIndex n ⌊(x - lo) / ((hi - lo) / n)⌋ ∧
      clampIndex n ⌊(x - lo) / ((hi - lo) / n)⌋ ≤ (n : ℤ) - 1 := by
  have hn0 : (0 : ℚ) < n := by
    exact_mod_cast Nat.lt_of_lt_of_le Nat.zero_lt_one hn
  have hw : (0 : ℚ) < (hi - lo) / n := div_pos (by linarith) hn0
  have hq0 : (0 : ℚ) ≤ (x - lo) / ((hi - lo) / n) := div_nonneg (by linarith) hw.le
  have hqn : (x - lo) / ((hi - lo) / n) ≤ (n : ℚ) := by
    rw [div_le_iff₀ hw]
    have : (n : ℚ) * ((hi - lo) / n) = hi - lo := by
      field_simp
    rw [this]
    linarith
  have hf0 : 0 ≤ ⌊(x - lo) / ((hi - lo) / n)⌋ := Int.floor_nonneg.mpr hq0
  have hfn : ⌊(x - lo) / ((hi - lo) / n)⌋ ≤ (n : ℤ) := by
    have := Int.floor_le_floor hqn
    rwa [Int.floor_natCast] at this
  rw [clampIndex]
  split
  · constructor <;> omega
  · rename_i hne
    constructor
    · exact hf0
    · omega

/-- C3 (spec-modelled, `grid.py` absent from the sources): for every grid
accepted by `setup` (strict bounds, `n_tiles_side ≥ 1`), `get_tile_index`
maps every point of the closed box `[min, max]` to indices in
`[0, n_tiles_side - 1]` on both axes, and on `Grid.setup 0 0 100 100 2` the
concrete points give `(99,1) ↦ (1,0)`, `(100,100) ↦ (1,1)` (max-edge clamp)
and `(49,49) ↦ (0,0)`. -/
theorem get_tile_index_in_range (mx my Mx My : ℚ) (n : ℕ) (g : Grid)
    (hsetup : Grid.setup mx my Mx My n = some g)
    (x y : ℚ) (hx1 : mx ≤ x) (hx2 : x ≤ Mx) (hy1 : my ≤ y) (hy2 : y ≤ My) :
    (0 ≤ (g.get_tile_index x y).1 ∧ (g.get_tile_index x y).1 ≤ (n : ℤ) - 1 ∧
      0 ≤ (g.get_tile_index x y).2 ∧ (g.get_tile_index x y).2 ≤ (n : ℤ) - 1) ∧
    (Grid.setup 0 0 100 100 2).map
        (fun g0 => (g0.get_tile_index 99 1, g0.get_tile_index 100 100,
          g0.get_tile_index 49 49))
      = some ((1, 0), (1, 1), (0, 0)) := by
  constructor
  · rw [Grid.setup] at hsetup
    split_ifs at hsetup with h
    · obtain ⟨h1, h2, h3⟩ := h
      cases hsetup
      have hxax := clampIndex_floor_mem mx Mx x n h1 h3 hx1 hx2
      have hyax := clampIndex_floor_mem my My y n h2 h3 hy1 hy2
      rw [Grid.get_tile_index, Grid.tile_width, Grid.tile_height,
        ratFloor_eq_intFloor, ratFloor_eq_intFloor]
      exact ⟨hxax.1, hxax.2, hyax.1, hyax.2⟩
  · have hs : Grid.setup 0 0 100 100 2 = some (Grid.mk 0 0 100 100 2) := by
      rw [Grid.setup]
      norm_num
    rw [hs]
    refine congrArg some ?_
    norm_num [Grid.get_tile_index, Grid.tile_width, Grid.tile_height, clampIndex,
      Rat.floor_def', Prod.ext_iff]

/-- C3, witnessed on `Grid.setup 0 0 100 100 2` at the interior point
`(99, 1)`. -/
theorem get_tile_index_in_range_witness :
    (0 ≤ ((Grid.mk 0 0 100 100 2).get_tile_index 99 1).1 ∧
      ((Grid.mk 0 0 100 100 2).get_tile_index 99 1).1 ≤ (2 : ℤ) - 1 ∧
      0 ≤ ((Grid.mk 0 0 100 100 2).get_tile_index 99 1).2 ∧
      ((Grid.mk 0 0 100 100 2).get_tile_index 99 1).2 ≤ (2 : ℤ) - 1) ∧
    (Grid.setup 0 0 100 100 2).map
        (fun g0 => (g0.get_tile_index 99 1, g0.get_tile_index 100 100,
          g0.get_tile_index 49 49))
      = some ((1, 0), (1, 1), (0, 0)) :=
  get_tile_index_in_range 0 0 100 100 2 (Grid.mk 0 0 100 100 2)
    (by rw [Grid.setup]; norm_num)
    99 1 (by norm_num) (by norm_num) (by norm_num) (by norm_num)

/-! ## remote_utils.py — pull

Paths are modelled as lists of segments (`os.path.join parent child` becomes
`parent ++ [child]`).  The WebDAV client is an oracle: what `check` returns,
whether `check`/`download_file` raise, what `list` returns and what `is_dir`
returns.  The pre-existing local file system is an oracle `lfs`; paths the
run itself creates are threaded through as the `created` list.  Remote
queries, directory creations and downloads are recorded in an action trace.
Recursion is bounded by explicit fuel, a modelling device only: the source
recurses on the (finite) remote tree. -/

/-- Oracle view of the WebDAV client used by `pull_directory_from_remote`. -/
structure WebDavFS where
  checkRaises : List String → Bool
  check : List String → Bool
  listRemote : List String → List String
  is_dir : List String → Bool
  downloadRaises : List String → Bool

/-- One observable action of a pull run. -/
inductive RAction where
  | checkRemote (p : List String)
  | listDir (p : List String)
  | makedirs (p : List String)
  | isDirQuery (p : List String)
  | download (p : List String)
  deriving DecidableEq

/-- The exceptions a pull run can surface, plus fuel exhaustion of the
model. -/
inductive PullErr where
  | fileExists (p : List String)
  | webdav (p : List String)
  | outOfFuel
  deriving DecidableEq

/-- Result of a pull run: the performed actions, the local paths created
(newest first), and the propagated exception if any. -/
def PullRes : Type := List RAction × List (List String) × Option PullErr

/-- The body of the `for record in records` loop of
`pull_directory_from_remote`: directories recurse via `pull`, files are
downloaded by `pull_file_from_remote`; any exception aborts the loop
(modelled by passing an error accumulator through unchanged). -/
def pull_step (c : WebDavFS) (pull : List (List String) → List String → List String → PullRes)
    (local_dir remote_dir : List String) (acc : PullRes) (record : String) : PullRes :=
  match acc with
  | (tr, created, some e) => (tr, created, some e)
  | (tr, created, none) =>
    let rpath := remote_dir ++ [record]
    let lpath := local_dir ++ [record]
    if c.is_dir rpath then
      match pull created lpath rpath with
      | (tr2, created2, e2) => (tr ++ RAction.isDirQuery rpath :: tr2, created2, e2)
    else if c.downloadRaises rpath then
      (tr ++ [RAction.isDirQuery rpath], created, some (PullErr.webdav rpath))
    else
      (tr ++ [RAction.isDirQuery rpath, RAction.download rpath], lpath :: created, none)

/-- `pull_directory_from_remote` (lines 180-219 of `remote_utils.py`): fails
with `FileExistsError` when the local target exists; calls `wdclient.check`
on the remote directory, propagating only an exception of the call — its
boolean result is ignored; drops the first entry of the remote listing
(`records = records[1:]`); creates the local directory; then handles each
remaining entry via `pull_step`. -/
def pull_directory_from_remote (c : WebDavFS) (lfs : List String → Bool) :
    Nat → List (List String) → List String → List String → PullRes
  | fuel, created, local_dir, remote_dir =>
    if lfs local_dir || created.contains local_dir then
      ([], created, some (PullErr.fileExists local_dir))
    else
      match fuel with
      | 0 => ([], created, some PullErr.outOfFuel)
      | Nat.succ fuel =>
        if c.checkRaises remote_dir then
          ([RAction.checkRemote remote_dir], created, some (PullErr.webdav remote_dir))
        else
          let records := (c.listRemote remote_dir).drop 1
          records.foldl
            (pull_step c (pull_directory_from_remote c lfs fuel) local_dir remote_dir)
            ([RAction.checkRemote remote_dir, RAction.listDir remote_dir,
              RAction.makedirs local_dir], local_dir :: created, none)

/-- C4: pulling into a local path that already exists (as a file or a
directory) fails immediately with `FileExistsError`: the action trace is
empty — no remote check, no listing, no download — and the set of locally
created paths is unchanged. -/
theorem pull_existing_local_fails (c : WebDavFS) (lfs : List String → Bool)
    (fuel : Nat) (created : List (List String)) (ldir rdir : List String)
    (h : lfs ldir = true) :
    pull_directory_from_remote c lfs fuel created ldir rdir
      = ([], created, some (PullErr.fileExists ldir)) := by
  rw [pull_directory_from_remote.eq_def]
  simp [h]

/-- C4, witnessed on a pre-existing local target with a remote listing that
would otherwise be downloaded. -/
theorem pull_existing_local_fails_witness :
    pull_directory_from_remote
        (WebDavFS.mk (fun _ => false) (fun _ => true) (fun _ => ["d", "f"])
          (fun _ => false) (fun _ => false))
        (fun _ => true) 5 [] ["data"] ["remote"]
      = ([], [], some (PullErr.fileExists ["data"])) :=
  pull_existing_local_fails
    (WebDavFS.mk (fun _ => false) (fun _ => true) (fun _ => ["d", "f"])
      (fun _ => false) (fun _ => false))
    (fun _ => true) 5 [] ["data"] ["remote"] rfl

/-- C5: counterexample.  A remote directory the client reports as absent
(`check` returns `false` without raising): the pull does not fail before
listing — it performs the listing, creates the local directory and returns
without error, because the boolean result of `wdclient.check` is ignored. -/
theorem pull_missing_remote_counterexample :
    (WebDavFS.mk (fun _ => false) (fun _ => false) (fun _ => ["self"])
        (fun _ => false) (fun _ => false)).check ["r"] = false ∧
    pull_directory_from_remote
        (WebDavFS.mk (fun _ => false) (fun _ => false) (fun _ => ["self"])
          (fun _ => false) (fun _ => false))
        (fun _ => false) 1 [] ["d"] ["r"]
      = ([RAction.checkRemote ["r"], RAction.listDir ["r"], RAction.makedirs ["d"]],
          [["d"]], none) :=
  ⟨rfl, rfl⟩

/-- One loop step only appends to the action trace. -/
theorem pull_step_extends (c : WebDavFS)
    (pull : List (List String) → List String → List String → PullRes)
    (ldir rdir : List String) (tr : List RAction) (cr : List (List String))
    (e : Option PullErr) (r : String) :
    ∃ δ cr' e', pull_step c pull ldir rdir (tr, cr, e) r = (tr ++ δ, cr', e') := by
  cases e with
  | some err => exact ⟨[], cr, some err, by simp [pull_step]⟩
  | none =>
    by_cases hd : c.is_dir (rdir ++ [r]) = true
    · rcases hp : pull cr (ldir ++ [r]) (rdir ++ [r]) with ⟨tr2, cr2, e2⟩
      exact ⟨RAction.isDirQuery (rdir ++ [r]) :: tr2, cr2, e2,
        by simp [pull_step, hd, hp]⟩
    · by_cases hw : c.downloadRaises (rdir ++ [r]) = true
      · exact ⟨[RAction.isDirQuery (rdir ++ [r])], cr,
          some (PullErr.webdav (rdir ++ [r])), by simp [pull_step, hd, hw]⟩
      · exact ⟨[RAction.isDirQuery (rdir ++ [r]), RAction.download (rdir ++ [r])],
          (ldir ++ [r]) :: cr, none, by simp [pull_step, hd, hw]⟩

/-- The loop only appends to the action trace it starts from. -/
theorem pull_foldl_extends (c : WebDavFS)
    (pull : List (List String) → List String → List String → PullRes)
    (ldir rdir : List String) (records : List String) :
    ∀ (tr : List RAction) (cr : List (List String)) (e : Option PullErr),
      ∃ rest, (records.foldl (pull_step c pull ldir rdir) (tr, cr, e)).1 = tr ++ rest := by
  induction records with
  | nil => intro tr cr e; exact ⟨[], by simp⟩
  | cons r rs ih =>
    intro tr cr e
    obtain ⟨δ, cr', e', hstep⟩ := pull_step_extends c pull ldir rdir tr cr e r
    rw [List.foldl_cons, hstep]
    obtain ⟨rest, hrest⟩ := ih (tr ++ δ) cr' e'
    exact ⟨δ ++ rest, by rw [hrest, List.append_assoc]⟩

/-- Every action in the loop's trace either was already in the accumulator,
or is the `is_dir` query or download of one of the handled records, or lies
in the trace of a recursive pull into one of the handled records. -/
theorem pull_foldl_mem (c : WebDavFS)
    (pull : List (List String) → List String → List String → PullRes)
    (ldir rdir : List String) (records : List String) :
    ∀ (tr : List RAction) (cr : List (List String)) (e : Option PullErr) (a : RAction),
      a ∈ (records.foldl (pull_step c pull ldir rdir) (tr, cr, e)).1 →
      a ∈ tr ∨ ∃ r, r ∈ records ∧
        (a = RAction.isDirQuery (rdir ++ [r]) ∨ a = RAction.download (rdir ++ [r]) ∨
          ∃ cr2, a ∈ (pull cr2 (ldir ++ [r]) (rdir ++ [r])).1) := by
  induction records with
  | nil => intro tr cr e a ha; exact Or.inl (by simpa using ha)
  | cons r rs ih =>
    intro tr cr e a ha
    rw [List.foldl_cons] at ha
    cases e with
    | some err =>
      rcases ih tr cr (some err) a (by simpa [pull_step] using ha) with h | ⟨r', hr', h⟩
      · exact Or.inl h
      · exact Or.inr ⟨r', List.mem_cons_of_mem _ hr', h⟩
    | none =>
      by_cases hd : c.is_dir (rdir ++ [r]) = true
      · rcases hp : pull cr (ldir ++ [r]) (rdir ++ [r]) with ⟨tr2, cr2, e2⟩
        rw [show pull_step c pull ldir rdir (tr, cr, none) r
            = (tr ++ RAction.isDirQuery (rdir ++ [r]) :: tr2, cr2, e2) from
          by simp [pull_step, hd, hp]] at ha
        rcases ih _ _ _ a ha with h | ⟨r', hr', h⟩
        · rcases List.mem_append.mp h with h | h
          · exact Or.inl h
          · rcases List.mem_cons.mp h with h | h
            · exact Or.inr ⟨r, List.mem_cons_self r rs, Or.inl h⟩
            · exact Or.inr ⟨r, List.mem_cons_self r rs,
                Or.inr (Or.inr ⟨cr, by rw [hp]; exact h⟩)⟩
        · exact Or.inr ⟨r', List.mem_cons_of_mem _ hr', h⟩
      · by_cases hw : c.downloadRaises (rdir ++ [r]) = true
        · rw [show pull_step c pull ldir rdir (tr, cr, none) r
              = (tr ++ [RAction.isDirQuery (rdir ++ [r])], cr,
                  some (PullErr.webdav (rdir ++ [r]))) from
            by simp [pull_step, hd, hw]] at ha
          rcases ih _ _ _ a ha with h | ⟨r', hr', h⟩
          · rcases List.mem_append.mp h with h | h
            · exact Or.inl h
            · exact Or.inr ⟨r, List.mem_cons_self r rs,
                Or.inl (List.mem_singleton.mp h)⟩
          · exact Or.inr ⟨r', List.mem_cons_of_mem _ hr', h⟩
        · rw [show pull_step c pull ldir rdir (tr, cr, none) r
              = (tr ++ [RAction.isDirQuery (rdir ++ [r]), RAction.download (rdir ++ [r])],
                  (ldir ++ [r]) :: cr, none) from
            by simp [pull_step, hd, hw]] at ha
          rcases ih _ _ _ a ha with h | ⟨r', hr', h⟩
          · rcases List.mem_append.mp h with h | h
            · exact Or.inl h
            · rcases List.mem_cons.mp h with h | h
              · exact Or.inr ⟨r, List.mem_cons_self r rs, Or.inl h⟩
              · exact Or.inr ⟨r, List.mem_cons_self r rs,
                  Or.inr (Or.inl (List.mem_singleton.mp h))⟩
          · exact Or.inr ⟨r', List.mem_cons_of_mem _ hr', h⟩

/-- Every `is_dir` query or download a pull performs lies strictly below the
pulled remote directory. -/
theorem pull_remote_action_depth (c : WebDavFS) (lfs : List String → Bool) :
    ∀ (fuel : Nat) (created : List (List String)) (ldir rdir p : List String),
      (RAction.isDirQuery p
          ∈ (pull_directory_from_remote c lfs fuel created ldir rdir).1 ∨
        RAction.download p
          ∈ (pull_directory_from_remote c lfs fuel created ldir rdir).1) →
      rdir <+: p ∧ rdir.length < p.length := by
  intro fuel
  induction fuel with
  | zero =>
    intro created ldir rdir p hp
    rw [pull_directory_from_remote.eq_def] at hp
    by_cases hex : lfs ldir = true ∨ ldir ∈ created
    · simp [hex] at hp
    · simp [hex] at hp
  | succ fuel ih =>
    intro created ldir rdir p hp
    rw [pull_directory_from_remote.eq_def] at hp
    by_cases hex : lfs ldir = true ∨ ldir ∈ created
    · simp [hex] at hp
    · by_cases hcr : c.checkRaises rdir = true
      · simp [hex, hcr] at hp
      · simp [hex, hcr] at hp
        have hmem : ∀ a : RAction,
            a ∈ (((c.listRemote rdir).drop 1).foldl
              (pull_step c (pull_directory_from_remote c lfs fuel) ldir rdir)
              ([RAction.checkRemote rdir, RAction.listDir rdir,
                RAction.makedirs ldir], ldir :: created, none)).1 →
            a ∈ [RAction.checkRemote rdir, RAction.listDir rdir,
                RAction.makedirs ldir] ∨
            ∃ r, r ∈ (c.listRemote rdir).drop 1 ∧
              (a = RAction.isDirQuery (rdir ++ [r]) ∨ a = RAction.download (rdir ++ [r]) ∨
                ∃ cr2, a ∈ (pull_directory_from_remote c lfs fuel cr2 (ldir ++ [r])
                  (rdir ++ [r])).1) :=
          fun a => pull_foldl_mem c (pull_directory_from_remote c lfs fuel) ldir rdir _ _ _ _ a
        rw [List.drop_one] at hmem
        rcases hp with hp | hp
        · rcases hmem _ hp with h | ⟨r, _, h⟩
          · simp at h
          · rcases h with h | h | ⟨cr2, h⟩
            · obtain rfl : p = rdir ++ [r] := by injection h
              refine ⟨List.prefix_append rdir [r], ?_⟩
              simp
            · simp at h
            · have hsub := ih cr2 (ldir ++ [r]) (rdir ++ [r]) p (Or.inl h)
              refine ⟨(List.prefix_append rdir [r]).trans hsub.1, ?_⟩
              have h2 := hsub.2
              simp only [List.length_append, List.length_singleton] at h2
              omega
        · rcases hmem _ hp with h | ⟨r, _, h⟩
          · simp at h
          · rcases h with h | h | ⟨cr2, h⟩
            · simp at h
            · obtain rfl : p = rdir ++ [r] := by injection h
              refine ⟨List.prefix_append rdir [r], ?_⟩
              simp
            · have hsub := ih cr2 (ldir ++ [r]) (rdir ++ [r]) p (Or.inr h)
              refine ⟨(List.prefix_append rdir [r]).trans hsub.1, ?_⟩
              have h2 := hsub.2
              simp only [List.length_append, List.length_singleton] at h2
              omega

/-- C5 (amended): for a non-existing local target, the pull invokes the
remote existence check first and aborts before any listing or local creation
only when the check call itself raises; the boolean result of the check is
ignored — whenever the call returns, the pull proceeds to list the remote
directory and create the local directory. -/
theorem pull_check_only_guards_raise (c : WebDavFS) (lfs : List String → Bool)
    (fuel : Nat) (created : List (List String)) (ldir rdir : List String)
    (h1 : lfs ldir = false) (h2 : ldir ∉ created) :
    (c.checkRaises rdir = true →
      pull_directory_from_remote c lfs (fuel + 1) created ldir rdir
        = ([RAction.checkRemote rdir], created, some (PullErr.webdav rdir))) ∧
    (c.checkRaises rdir = false → ∃ rest,
      (pull_directory_from_remote c lfs (fuel + 1) created ldir rdir).1
        = RAction.checkRemote rdir :: RAction.listDir rdir ::
            RAction.makedirs ldir :: rest) := by
  constructor
  · intro hcr
    rw [pull_directory_from_remote.eq_def]
    simp [h1, h2, hcr]
  · intro hcr
    obtain ⟨rest, hrest⟩ := pull_foldl_extends c
      (pull_directory_from_remote c lfs fuel) ldir rdir
      ((c.listRemote rdir).drop 1)
      [RAction.checkRemote rdir, RAction.listDir rdir, RAction.makedirs ldir]
      (ldir :: created) none
    refine ⟨rest, ?_⟩
    have heq : pull_directory_from_remote c lfs (fuel + 1) created ldir rdir
        = ((c.listRemote rdir).drop 1).foldl
            (pull_step c (pull_directory_from_remote c lfs fuel) ldir rdir)
            ([RAction.checkRemote rdir, RAction.listDir rdir,
              RAction.makedirs ldir], ldir :: created, none) := by
      rw [pull_directory_from_remote.eq_def]
      simp [h1, h2, hcr]
    rw [heq, hrest]
    rfl

/-- C5 (amended), witnessed on a raising check and on a returning check that
reports the remote directory as absent. -/
theorem pull_check_only_guards_raise_witness :
    pull_directory_from_remote
        (WebDavFS.mk (fun _ => true) (fun _ => false) (fun _ => [])
          (fun _ => false) (fun _ => false))
        (fun _ => false) 1 [] ["d"] ["r"]
      = ([RAction.checkRemote ["r"]], [], some (PullErr.webdav ["r"])) ∧
    ∃ rest,
      (pull_directory_from_remote
          (WebDavFS.mk (fun _ => false) (fun _ => false) (fun _ => ["s", "a"])
            (fun _ => false) (fun _ => false))
          (fun _ => false) 1 [] ["d"] ["r"]).1
        = RAction.checkRemote ["r"] :: RAction.listDir ["r"] ::
            RAction.makedirs ["d"] :: rest :=
  ⟨(pull_check_only_guards_raise
      (WebDavFS.mk (fun _ => true) (fun _ => false) (fun _ => [])
        (fun _ => false) (fun _ => false))
      (fun _ => false) 0 [] ["d"] ["r"] rfl (List.not_mem_nil _)).1 rfl,
   (pull_check_only_guards_raise
      (WebDavFS.mk (fun _ => false) (fun _ => false) (fun _ => ["s", "a"])
        (fun _ => false) (fun _ => false))
      (fun _ => false) 0 [] ["d"] ["r"] rfl (List.not_mem_nil _)).2 rfl⟩

/-- The actions counted for C10: an `is_dir` query exactly one segment below
the given remote directory — the query every handled record of that
directory's listing triggers first, exactly once. -/
def levelQuery (rdir : List String) (a : RAction) : Bool :=
  match a with
  | RAction.isDirQuery p => p.length == rdir.length + 1
  | _ => false

/-- Sub-pulls contribute nothing to a level's count, so the loop adds at most
one counted action per handled record. -/
theorem pull_foldl_count (c : WebDavFS)
    (pull : List (List String) → List String → List String → PullRes)
    (ldir rdir : List String) (records : List String)
    (hsub : ∀ cr2 r,
      ((pull cr2 (ldir ++ [r]) (rdir ++ [r])).1.countP (levelQuery rdir)) = 0) :
    ∀ (tr : List RAction) (cr : List (List String)) (e : Option PullErr),
      ((records.foldl (pull_step c pull ldir rdir) (tr, cr, e)).1.countP
          (levelQuery rdir))
        ≤ tr.countP (levelQuery rdir) + records.length := by
  induction records with
  | nil => intro tr cr e; simp
  | cons r rs ih =>
    intro tr cr e
    rw [List.foldl_cons]
    obtain ⟨δ, cr', e', hstep⟩ := pull_step_extends c pull ldir rdir tr cr e r
    have hδ : δ.countP (levelQuery rdir) ≤ 1 := by
      cases e with
      | some err =>
        have h' : pull_step c pull ldir rdir (tr, cr, some err) r = (tr, cr, some err) := by
          simp [pull_step]
        rw [hstep] at h'
        have hfst : tr ++ δ = tr ++ [] := by
          simpa using congrArg Prod.fst h'
        have hnil : δ = [] := List.append_cancel_left hfst
        simp [hnil]
      | none =>
        by_cases hd : c.is_dir (rdir ++ [r]) = true
        · rcases hp : pull cr (ldir ++ [r]) (rdir ++ [r]) with ⟨tr2, cr2, e2⟩
          have hδval : δ = RAction.isDirQuery (rdir ++ [r]) :: tr2 := by
            have h' : pull_step c pull ldir rdir (tr, cr, none) r
                = (tr ++ RAction.isDirQuery (rdir ++ [r]) :: tr2, cr2, e2) := by
              simp [pull_step, hd, hp]
            rw [hstep] at h'
            exact List.append_cancel_left (congrArg Prod.fst h')
          have htr2 : tr2.countP (levelQuery rdir) = 0 := by
            have := hsub cr r
            rwa [hp] at this
          rw [hδval, List.countP_cons]
          simp [htr2, levelQuery]
        · by_cases hw : c.downloadRaises (rdir ++ [r]) = true
          · have hδval : δ = [RAction.isDirQuery (rdir ++ [r])] := by
              have h' : pull_step c pull ldir rdir (tr, cr, none) r
                  = (tr ++ [RAction.isDirQuery (rdir ++ [r])], cr,
                      some (PullErr.webdav (rdir ++ [r]))) := by
                simp [pull_step, hd, hw]
              rw [hstep] at h'
              exact List.append_cancel_left (congrArg Prod.fst h')
            rw [hδval]
            simp [List.countP_cons, levelQuery]
          · have hδval : δ = [RAction.isDirQuery (rdir ++ [r]),
                RAction.download (rdir ++ [r])] := by
              have h' : pull_step c pull ldir rdir (tr, cr, none) r
                  = (tr ++ [RAction.isDirQuery (rdir ++ [r]),
                      RAction.download (rdir ++ [r])],
                      (ldir ++ [r]) :: cr, none) := by
                simp [pull_step, hd, hw]
              rw [hstep] at h'
              exact List.append_cancel_left (congrArg Prod.fst h')
            rw [hδval]
            simp [List.countP_cons, levelQuery]
    rw [hstep]
    have hrec := ih (tr ++ δ) cr' e'
    rw [List.countP_append] at hrec
    calc ((rs.foldl (pull_step c pull ldir rdir) (tr ++ δ, cr', e')).1.countP
            (levelQuery rdir))
        ≤ tr.countP (levelQuery rdir) + δ.countP (levelQuery rdir) + rs.length := hrec
      _ ≤ tr.countP (levelQuery rdir) + (r :: rs).length := by
          simp only [List.length_cons]
          omega

/-- C10: every remote listing a pull obtains has its first entry discarded
(`records = records[1:]`): at the pulled directory's level, every `is_dir`
query or download concerns an entry of the listing's tail, and for a listing
of `k` entries at most `k - 1` records are handled at that level (each
handled record triggers exactly one level `is_dir` query). -/
theorem pull_drops_first_record (c : WebDavFS) (lfs : List String → Bool)
    (fuel : Nat) (created : List (List String)) (ldir rdir : List String) :
    (∀ r : String,
      (RAction.isDirQuery (rdir ++ [r])
          ∈ (pull_directory_from_remote c lfs fuel created ldir rdir).1 ∨
        RAction.download (rdir ++ [r])
          ∈ (pull_directory_from_remote c lfs fuel created ldir rdir).1) →
      r ∈ (c.listRemote rdir).drop 1) ∧
    ((pull_directory_from_remote c lfs fuel created ldir rdir).1.countP
        (levelQuery rdir))
      ≤ (c.listRemote rdir).length - 1 := by
  cases fuel with
  | zero =>
    constructor
    · intro r hr
      rw [pull_directory_from_remote.eq_def] at hr
      by_cases hex : lfs ldir = true ∨ ldir ∈ created <;> simp [hex] at hr
    · rw [pull_directory_from_remote.eq_def]
      by_cases hex : lfs ldir = true ∨ ldir ∈ created <;> simp [hex]
  | succ fuel =>
    by_cases hex : lfs ldir = true ∨ ldir ∈ created
    · constructor
      · intro r hr
        rw [pull_directory_from_remote.eq_def] at hr
        simp [hex] at hr
      · rw [pull_directory_from_remote.eq_def]
        simp [hex]
    · by_cases hcr : c.checkRaises rdir = true
      · constructor
        · intro r hr
          rw [pull_directory_from_remote.eq_def] at hr
          simp [hex, hcr] at hr
        · rw [pull_directory_from_remote.eq_def]
          simp [hex, hcr, levelQuery]
      · have heq : pull_directory_from_remote c lfs (fuel + 1) created ldir rdir
            = ((c.listRemote rdir).drop 1).foldl
                (pull_step c (pull_directory_from_remote c lfs fuel) ldir rdir)
                ([RAction.checkRemote rdir, RAction.listDir rdir,
                  RAction.makedirs ldir], ldir :: created, none) := by
          rw [pull_directory_from_remote.eq_def]
          simp [hex, hcr]
        constructor
        · intro r hr
          rw [heq] at hr
          rcases hr with hr | hr
          · rcases pull_foldl_mem c (pull_directory_from_remote c lfs fuel) ldir rdir
              ((c.listRemote rdir).drop 1) _ _ _ _ hr with h | ⟨r', hr', h⟩
            · simp at h
            · rcases h with h | h | ⟨cr2, h⟩
              · have hr0 : rdir ++ [r] = rdir ++ [r'] := by injection h
                obtain rfl : r = r' := by
                  have := List.append_cancel_left hr0
                  simpa using this
                exact hr'
              · simp at h
              · have hsub := pull_remote_action_depth c lfs fuel cr2 (ldir ++ [r'])
                  (rdir ++ [r']) (rdir ++ [r]) (Or.inl h)
                have hlen := hsub.2
                simp at hlen
          · rcases pull_foldl_mem c (pull_directory_from_remote c lfs fuel) ldir rdir
              ((c.listRemote rdir).drop 1) _ _ _ _ hr with h | ⟨r', hr', h⟩
            · simp at h
            · rcases h with h | h | ⟨cr2, h⟩
              · simp at h
              · have hr0 : rdir ++ [r] = rdir ++ [r'] := by injection h
                obtain rfl : r = r' := by
                  have := List.append_cancel_left hr0
                  simpa using this
                exact hr'
              · have hsub := pull_remote_action_depth c lfs fuel cr2 (ldir ++ [r'])
                  (rdir ++ [r']) (rdir ++ [r]) (Or.inr h)
                have hlen := hsub.2
                simp at hlen
        · have hsub0 : ∀ (cr2 : List (List String)) (r : String),
              ((pull_directory_from_remote c lfs fuel cr2 (ldir ++ [r])
                  (rdir ++ [r])).1.countP (levelQuery rdir)) = 0 := by
            intro cr2 r
            rw [List.countP_eq_zero]
            intro a ha
            cases a with
            | checkRemote p => simp [levelQuery]
            | listDir p => simp [levelQuery]
            | makedirs p => simp [levelQuery]
            | download p => simp [levelQuery]
            | isDirQuery p =>
              have hd := pull_remote_action_depth c lfs fuel cr2 (ldir ++ [r])
                (rdir ++ [r]) p (Or.inl ha)
              have hlen := hd.2
              simp only [List.length_append, List.length_singleton] at hlen
              simp [levelQuery]
              omega
          have hcount := pull_foldl_count c (pull_directory_from_remote c lfs fuel)
            ldir rdir ((c.listRemote rdir).drop 1) hsub0
            [RAction.checkRemote rdir, RAction.listDir rdir, RAction.makedirs ldir]
            (ldir :: created) none
          have hinit : ([RAction.checkRemote rdir, RAction.listDir rdir,
              RAction.makedirs ldir].countP (levelQuery rdir)) = 0 := by
            simp [List.countP_cons, levelQuery]
          rw [heq]
          rw [hinit, Nat.zero_add] at hcount
          calc (((( c.listRemote rdir).drop 1).foldl
                  (pull_step c (pull_directory_from_remote c lfs fuel) ldir rdir)
                  ([RAction.checkRemote rdir, RAction.listDir rdir,
                    RAction.makedirs ldir], ldir :: created, none)).1.countP
                  (levelQuery rdir))
              ≤ ((c.listRemote rdir).drop 1).length := hcount
            _ ≤ (c.listRemote rdir).length - 1 := by simp [List.length_drop]

/-- C10, witnessed on a two-entry remote listing `["s", "a"]`: only the tail
entry `"a"` is downloaded, and the level count is bounded by `2 - 1`. -/
theorem pull_drops_first_record_witness :
    "a" ∈ (((WebDavFS.mk (fun _ => false) (fun _ => false) (fun _ => ["s", "a"])
        (fun _ => false) (fun _ => false)).listRemote ["r"]).drop 1) ∧
    ((pull_directory_from_remote
        (WebDavFS.mk (fun _ => false) (fun _ => false) (fun _ => ["s", "a"])
          (fun _ => false) (fun _ => false))
        (fun _ => false) 1 [] ["d"] ["r"]).1.countP (levelQuery ["r"]))
      ≤ ((WebDavFS.mk (fun _ => false) (fun _ => false) (fun _ => ["s", "a"])
          (fun _ => false) (fun _ => false)).listRemote ["r"]).length - 1 := by
  have htr : (pull_directory_from_remote
      (WebDavFS.mk (fun _ => false) (fun _ => false) (fun _ => ["s", "a"])
        (fun _ => false) (fun _ => false))
      (fun _ => false) 1 [] ["d"] ["r"]).1
      = [RAction.checkRemote ["r"], RAction.listDir ["r"], RAction.makedirs ["d"],
         RAction.isDirQuery ["r", "a"], RAction.download ["r", "a"]] := rfl
  constructor
  · refine (pull_drops_first_record
      (WebDavFS.mk (fun _ => false) (fun _ => false) (fun _ => ["s", "a"])
        (fun _ => false) (fun _ => false))
      (fun _ => false) 1 [] ["d"] ["r"]).1 "a" (Or.inr ?_)
    rw [htr]
    simp
  · exact (pull_drops_first_record
      (WebDavFS.mk (fun _ => false) (fun _ => false) (fun _ => ["s", "a"])
        (fun _ => false) (fun _ => false))
      (fun _ => false) 1 [] ["d"] ["r"]).2

/-! ## remote_utils.py — push

The remote store's state is explicit for push: an association list from
remote paths to a directory flag (`true` = directory, `false` = file),
queried through `wdclient.check` / `wdclient.is_dir` and updated by
`wdclient.mkdir` / `wdclient.clean` / `upload_sync`.  The local tree to push
is a finite tree value (the result of `os.listdir` walks), so the recursion
is structural and needs no fuel.  The transport may raise on `mkdir` and
`upload`, via oracles. -/

/-- The remote file system's state: path, and whether a directory sits
there. -/
def RState : Type := List (List String × Bool)

/-- `wdclient.check`: does any record exist at the path? -/
def rcheck (s : RState) (p : List String) : Bool := (s.lookup p).isSome

/-- `wdclient.is_dir`: does a directory sit at the path? -/
def ris_dir (s : RState) (p : List String) : Bool := s.lookup p == some true

/-- `wdclient.clean`: remove the record at the path. -/
def rremove (s : RState) (p : List String) : RState :=
  s.filter (fun q => !(q.1 == p))

/-- `wdclient.mkdir`: create a directory at the path. -/
def rmkdir (s : RState) (p : List String) : RState := (p, true) :: rremove s p

/-- `wdclient.upload_sync`: place a file at the path. -/
def rupload (s : RState) (p : List String) : RState := (p, false) :: rremove s p

/-- One observable action of a push run. -/
inductive PAction where
  | mkdir (p : List String)
  | clean (p : List String)
  | upload (p : List String)
  deriving DecidableEq

/-- The exceptions a push run can surface. -/
inductive PushErr where
  | fileNotFound
  | fileExists (p : List String)
  | remoteNotFound (p : List String)
  | webdav (p : List String)
  deriving DecidableEq

/-- Whether the transport raises on a given operation. -/
structure PushCtx where
  mkdirRaises : List String → Bool
  uploadRaises : List String → Bool

/-- A local directory entry as seen by `os.listdir` walks: a plain file or a
subdirectory with its own named entries. -/
inductive LEntry where
  | file
  | dir (children : List (String × LEntry))

/-- `push_file_to_remote` (lines 85-110 of `remote_utils.py`): requires the
remote parent directory to exist (`RemoteResourceNotFound` otherwise), then
uploads, propagating a transport failure.  The local file's content plays no
role in the model. -/
def push_file_to_remote (c : PushCtx) (s : RState) (remote_dir : List String)
    (file : String) : List PAction × RState × Option PushErr :=
  let rpath := remote_dir ++ [file]
  if rcheck s remote_dir then
    if c.uploadRaises rpath then ([], s, some (PushErr.webdav rpath))
    else ([PAction.upload rpath], rupload s rpath, none)
  else ([], s, some (PushErr.remoteNotFound rpath))

/-- Lines 271-282 of `push_directory_to_remote`: a missing remote target is
created as a directory (`FileNotFoundError` if the mkdir raises); an existing
non-directory target is a conflict (`FileExistsError`). -/
def ensure_remote_dir (c : PushCtx) (s : RState) (remote_dir : List String) :
    List PAction × RState × Option PushErr :=
  if rcheck s remote_dir = false then
    if c.mkdirRaises remote_dir then ([], s, some PushErr.fileNotFound)
    else ([PAction.mkdir remote_dir], rmkdir s remote_dir, none)
  else
    if ris_dir s remote_dir then ([], s, none)
    else ([], s, some (PushErr.fileExists remote_dir))

mutual

/-- `push_directory_to_remote` (lines 262-295 of `remote_utils.py`): ensures
the remote target directory, then handles the local records in listing
order. -/
def push_directory_to_remote (c : PushCtx) (s : RState)
    (local_dir remote_dir : List String) (children : List (String × LEntry)) :
    List PAction × RState × Option PushErr :=
  match ensure_remote_dir c s remote_dir with
  | (acts, s1, some e) => (acts, s1, some e)
  | (acts, s1, none) =>
    match push_records c s1 local_dir remote_dir children with
    | (acts2, s2, e2) => (acts ++ acts2, s2, e2)

/-- The `for lrecord in lrecords` loop of `push_directory_to_remote`: local
subdirectories recurse depth-first; for a local file, a remote record already
at the target path is cleaned first, then the file is uploaded via
`push_file_to_remote`; an exception aborts the loop. -/
def push_records (c : PushCtx) (s : RState) (local_dir remote_dir : List String) :
    List (String × LEntry) → List PAction × RState × Option PushErr
  | [] => ([], s, none)
  | (name, LEntry.dir sub) :: rest =>
    match push_directory_to_remote c s (local_dir ++ [name]) (remote_dir ++ [name]) sub with
    | (acts, s1, some e) => (acts, s1, some e)
    | (acts, s1, none) =>
      match push_records c s1 local_dir remote_dir rest with
      | (acts2, s2, e2) => (acts ++ acts2, s2, e2)
  | (name, LEntry.file) :: rest =>
    if rcheck s (remote_dir ++ [name]) then
      match push_file_to_remote c (rremove s (remote_dir ++ [name])) remote_dir name with
      | (acts, s1, some e) => (PAction.clean (remote_dir ++ [name]) :: acts, s1, some e)
      | (acts, s1, none) =>
        match push_records c s1 local_dir remote_dir rest with
        | (acts2, s2, e2) => (PAction.clean (remote_dir ++ [name]) :: acts ++ acts2, s2, e2)
    else
      match push_file_to_remote c s remote_dir name with
      | (acts, s1, some e) => (acts, s1, some e)
      | (acts, s1, none) =>
        match push_records c s1 local_dir remote_dir rest with
        | (acts2, s2, e2) => (acts ++ acts2, s2, e2)

end

/-- Relative paths of the files below a listing of local records. -/
def filePaths : List (String × LEntry) → List (List String)
  | [] => []
  | (name, LEntry.file) :: rest => [name] :: filePaths rest
  | (name, LEntry.dir sub) :: rest =>
    (filePaths sub).map (fun p => name :: p) ++ filePaths rest

/-- Distinctness of the record names at every level of a local tree, which
`os.listdir` guarantees. -/
def nodupNames : List (String × LEntry) → Bool
  | [] => true
  | (name, LEntry.file) :: rest =>
    !(rest.any (fun q => q.1 == name)) && nodupNames rest
  | (name, LEntry.dir sub) :: rest =>
    nodupNames sub && !(rest.any (fun q => q.1 == name)) && nodupNames rest

/-- Lookup after `rremove`: the removed path reads `none`, others are
unchanged. -/
theorem lookup_rremove (s : RState) (p q : List String) :
    (rremove s p).lookup q = if q = p then none else s.lookup q := by
  induction s with
  | nil => simp [rremove]
  | cons e s ih =>
    rcases e with ⟨a, b⟩
    rw [rremove, List.filter_cons]
    by_cases hap : a = p
    · subst hap
      simp only [beq_self_eq_true, Bool.not_true, Bool.false_eq_true, if_false]
      rw [show List.filter (fun q => !(q.1 == a)) s = rremove s a from rfl, ih]
      by_cases hqa : q = a
      · simp [hqa]
      · simp [hqa, List.lookup, show (q == a) = false from beq_eq_false_iff_ne.mpr hqa]
    · simp only [show (a == p) = false from beq_eq_false_iff_ne.mpr hap,
        Bool.not_false, if_true]
      rw [List.lookup]
      by_cases hqa : q = a
      · subst hqa
        simp only [beq_self_eq_true]
        have : q ≠ p := hap
        simp [this, List.lookup]
      · simp only [show (q == a) = false from beq_eq_false_iff_ne.mpr hqa]
        rw [show List.filter (fun q => !(q.1 == p)) s = rremove s p from rfl, ih]
        by_cases hqp : q = p
        · simp [hqp]
        · simp [hqp, List.lookup, show (q == a) = false from beq_eq_false_iff_ne.mpr hqa]

/-- Lookup after `rmkdir`. -/
theorem lookup_rmkdir (s : RState) (p q : List String) :
    (rmkdir s p).lookup q = if q = p then some true else s.lookup q := by
  rw [rmkdir, List.lookup]
  by_cases hqp : q = p
  · simp [hqp]
  · simp only [show (q == p) = false from beq_eq_false_iff_ne.mpr hqp]
    rw [lookup_rremove]
    simp [hqp]

/-- Lookup after `rupload`. -/
theorem lookup_rupload (s : RState) (p q : List String) :
    (rupload s p).lookup q = if q = p then some false else s.lookup q := by
  rw [rupload, List.lookup]
  by_cases hqp : q = p
  · simp [hqp]
  · simp only [show (q == p) = false from beq_eq_false_iff_ne.mpr hqp]
    rw [lookup_rremove]
    simp [hqp]

/-- File paths of a local tree are nonempty. -/
theorem filePaths_ne_nil (children : List (String × LEntry)) :
    ∀ p, p ∈ filePaths children → p ≠ [] := by
  induction children using filePaths.induct with
  | case1 => intro p hp; simp [filePaths] at hp
  | case2 name rest ih =>
    intro p hp
    rw [filePaths, List.mem_cons] at hp
    rcases hp with hp | hp
    · subst hp; simp
    · exact ih p hp
  | case3 name sub rest ihsub ih =>
    intro p hp
    rw [filePaths, List.mem_append] at hp
    rcases hp with hp | hp
    · rcases List.mem_map.mp hp with ⟨p', _, rfl⟩
      simp
    · exact ih p hp

/-- Every file path of a local tree starts with the name of one of its
records. -/
theorem filePaths_head (children : List (String × LEntry)) :
    ∀ p, p ∈ filePaths children →
      ∃ name t entry, p = name :: t ∧ (name, entry) ∈ children := by
  induction children using filePaths.induct with
  | case1 => intro p hp; simp [filePaths] at hp
  | case2 name rest ih =>
    intro p hp
    rw [filePaths, List.mem_cons] at hp
    rcases hp with hp | hp
    · exact ⟨name, [], LEntry.file, hp, List.mem_cons_self _ _⟩
    · obtain ⟨n, t, entry, rfl, hmem⟩ := ih p hp
      exact ⟨n, t, entry, rfl, List.mem_cons_of_mem _ hmem⟩
  | case3 name sub rest ihsub ih =>
    intro p hp
    rw [filePaths, List.mem_append] at hp
    rcases hp with hp | hp
    · rcases List.mem_map.mp hp with ⟨p', _, rfl⟩
      exact ⟨name, p', LEntry.dir sub, rfl, List.mem_cons_self _ _⟩
    · obtain ⟨n, t, entry, rfl, hmem⟩ := ih p hp
      exact ⟨n, t, entry, rfl, List.mem_cons_of_mem _ hmem⟩

/-- Traces in which a `clean` only ever occurs immediately before the
`upload` of the same path — deletion is exclusively the clobber of a
re-uploaded file. -/
inductive ClobberOnly : List PAction → Prop where
  | nil : ClobberOnly []
  | mk (p : List String) (rest : List PAction) :
      ClobberOnly rest → ClobberOnly (PAction.mkdir p :: rest)
  | up (p : List String) (rest : List PAction) :
      ClobberOnly rest → ClobberOnly (PAction.upload p :: rest)
  | cl (p : List String) (rest : List PAction) :
      ClobberOnly rest → ClobberOnly (PAction.clean p :: PAction.upload p :: rest)

/-- `ClobberOnly` is closed under concatenation. -/
theorem ClobberOnly.append {l1 l2 : List PAction}
    (h1 : ClobberOnly l1) (h2 : ClobberOnly l2) : ClobberOnly (l1 ++ l2) := by
  induction h1 with
  | nil => simpa using h2
  | mk p rest _ ih => exact ClobberOnly.mk p _ ih
  | up p rest _ ih => exact ClobberOnly.up p _ ih
  | cl p rest _ ih => exact ClobberOnly.cl p _ ih

/-- In a `ClobberOnly` trace, the action after any `clean p` is
`upload p`. -/
theorem ClobberOnly.get_clean {l : List PAction} (h : ClobberOnly l) :
    ∀ (i : Nat) (p : List String), l.get? i = some (PAction.clean p) →
      l.get? (i + 1) = some (PAction.upload p) := by
  induction h with
  | nil => intro i p hp; simp at hp
  | mk q rest _ ih =>
    intro i p hp
    cases i with
    | zero => simp at hp
    | succ i => exact ih i p hp
  | up q rest _ ih =>
    intro i p hp
    cases i with
    | zero => simp at hp
    | succ i => exact ih i p hp
  | cl q rest _ ih =>
    intro i p hp
    cases i with
    | zero =>
      simp only [List.get?] at hp
      obtain rfl : q = p := by
        injection hp with hp
        injection hp
      rfl
    | succ i =>
      cases i with
      | zero => simp at hp
      | succ i => exact ih i p hp

/-- `push_file_to_remote` leaves every other remote path untouched. -/
theorem push_file_state (c : PushCtx) (s : RState) (rdir : List String)
    (name : String) (q : List String) (hne : q ≠ rdir ++ [name]) :
    ((push_file_to_remote c s rdir name).2.1).lookup q = s.lookup q := by
  rw [push_file_to_remote]
  by_cases hc : rcheck s rdir = true
  · simp only [hc, if_true]
    by_cases hu : c.uploadRaises (rdir ++ [name]) = true
    · simp [hu]
    · simp only [hu, Bool.false_eq_true, if_false]
      rw [lookup_rupload]
      simp [hne]
  · simp [hc]

/-- A successful `push_file_to_remote` is exactly one upload of the target
path, placing the file there. -/
theorem push_file_ok (c : PushCtx) (s : RState) (rdir : List String) (name : String)
    (h : (push_file_to_remote c s rdir name).2.2 = none) :
    push_file_to_remote c s rdir name
      = ([PAction.upload (rdir ++ [name])], rupload s (rdir ++ [name]), none) := by
  rw [push_file_to_remote] at h ⊢
  by_cases hc : rcheck s rdir = true
  · simp only [hc, if_true] at h ⊢
    by_cases hu : c.uploadRaises (rdir ++ [name]) = true
    · simp [hu] at h
    · simp [hu]
  · simp [hc] at h

/-- `ensure_remote_dir` leaves every path other than the target untouched. -/
theorem ensure_state (c : PushCtx) (s : RState) (rdir : List String)
    (q : List String) (hne : q ≠ rdir) :
    ((ensure_remote_dir c s rdir).2.1).lookup q = s.lookup q := by
  rw [ensure_remote_dir]
  by_cases hc : rcheck s rdir = false
  · simp only [hc, if_true]
    by_cases hm : c.mkdirRaises rdir = true
    · simp [hm]
    · simp only [hm, Bool.false_eq_true, if_false]
      rw [lookup_rmkdir]
      simp [hne]
  · simp only [hc, if_false]
    by_cases hd : ris_dir s rdir = true <;> simp [hd]

/-- A successful `ensure_remote_dir` either created the missing target as a
directory or found a directory already there. -/
theorem ensure_ok (c : PushCtx) (s : RState) (rdir : List String)
    (h : (ensure_remote_dir c s rdir).2.2 = none) :
    (rcheck s rdir = false ∧ c.mkdirRaises rdir = false ∧
      ensure_remote_dir c s rdir = ([PAction.mkdir rdir], rmkdir s rdir, none)) ∨
    (rcheck s rdir = true ∧ ris_dir s rdir = true ∧
      ensure_remote_dir c s rdir = ([], s, none)) := by
  rw [ensure_remote_dir] at h ⊢
  by_cases hc : rcheck s rdir = false
  · rw [if_pos hc] at h ⊢
    by_cases hm : c.mkdirRaises rdir = true
    · rw [if_pos hm] at h
      simp at h
    · rw [if_neg hm] at h ⊢
      exact Or.inl ⟨hc, by simpa using hm, rfl⟩
  · rw [if_neg hc] at h ⊢
    by_cases hd : ris_dir s rdir = true
    · rw [if_pos hd] at h ⊢
      exact Or.inr ⟨by simpa using hc, hd, rfl⟩
    · rw [if_neg hd] at h
      simp at h

/-- A push touches no remote path outside the handled records' subtrees. -/
theorem push_records_untouched (c : PushCtx) (children : List (String × LEntry)) :
    ∀ (s : RState) (ldir rdir q : List String),
      (∀ name entry, (name, entry) ∈ children → ¬ (rdir ++ [name]) <+: q) →
      ((push_records c s ldir rdir children).2.1).lookup q = s.lookup q := by
  induction children using filePaths.induct with
  | case1 => intro s ldir rdir q hq; simp [push_records]
  | case2 name rest ih =>
    intro s ldir rdir q hq
    have hne : q ≠ rdir ++ [name] := by
      intro h
      exact hq name LEntry.file (List.mem_cons_self _ _) (h ▸ List.prefix_refl _)
    have hrest : ∀ n e, (n, e) ∈ rest → ¬ rdir ++ [n] <+: q :=
      fun n e hn => hq n e (List.mem_cons_of_mem _ hn)
    simp only [push_records]
    by_cases hc : rcheck s (rdir ++ [name]) = true
    · simp only [hc, if_true]
      rcases hpf : push_file_to_remote c (rremove s (rdir ++ [name])) rdir name
        with ⟨acts, s1, e1⟩
      have hs1 : List.lookup q s1 = List.lookup q s := by
        have h1 := push_file_state c (rremove s (rdir ++ [name])) rdir name q hne
        rw [hpf] at h1
        refine h1.trans ?_
        rw [lookup_rremove]
        simp [hne]
      cases e1 with
      | some err => exact hs1
      | none => exact (ih s1 ldir rdir q hrest).trans hs1
    · simp only [hc, Bool.false_eq_true, if_false]
      rcases hpf : push_file_to_remote c s rdir name with ⟨acts, s1, e1⟩
      have hs1 : List.lookup q s1 = List.lookup q s := by
        have h1 := push_file_state c s rdir name q hne
        rw [hpf] at h1
        exact h1
      cases e1 with
      | some err => exact hs1
      | none => exact (ih s1 ldir rdir q hrest).trans hs1
  | case3 name sub rest ihsub ih =>
    intro s ldir rdir q hq
    have hnotpre : ¬ (rdir ++ [name]) <+: q :=
      hq name (LEntry.dir sub) (List.mem_cons_self _ _)
    have hne : q ≠ rdir ++ [name] := by
      intro h
      exact hnotpre (h ▸ List.prefix_refl _)
    have hrest : ∀ n e, (n, e) ∈ rest → ¬ rdir ++ [n] <+: q :=
      fun n e hn => hq n e (List.mem_cons_of_mem _ hn)
    have hsubpre : ∀ n e, (n, e) ∈ sub → ¬ (rdir ++ [name]) ++ [n] <+: q :=
      fun n e hn hpre => hnotpre
        ((List.prefix_append (rdir ++ [name]) [n]).trans hpre)
    simp only [push_records, push_directory_to_remote]
    rcases hens : ensure_remote_dir c s (rdir ++ [name]) with ⟨actsE, sE, eE⟩
    have hsE : List.lookup q sE = List.lookup q s := by
      have h1 := ensure_state c s (rdir ++ [name]) q hne
      rw [hens] at h1
      exact h1
    cases eE with
    | some err => exact hsE
    | none =>
      dsimp only
      rcases hsub : push_records c sE (ldir ++ [name]) (rdir ++ [name]) sub
        with ⟨actsS, sS, eS⟩
      have hsS : List.lookup q sS = List.lookup q s := by
        have h1 := ihsub sE (ldir ++ [name]) (rdir ++ [name]) q hsubpre
        rw [hsub] at h1
        exact h1.trans hsE
      cases eS with
      | some err => exact hsS
      | none => exact (ih sS ldir rdir q hrest).trans hsS

/-- A push that completes without error produces a `ClobberOnly` trace:
every deletion is immediately followed by the upload of the same path. -/
theorem push_records_clobber (c : PushCtx) (children : List (String × LEntry)) :
    ∀ (s : RState) (ldir rdir : List String),
      (push_records c s ldir rdir children).2.2 = none →
      ClobberOnly (push_records c s ldir rdir children).1 := by
  induction children using filePaths.induct with
  | case1 =>
    intro s ldir rdir h
    simp only [push_records]
    exact ClobberOnly.nil
  | case2 name rest ih =>
    intro s ldir rdir h
    simp only [push_records] at h ⊢
    by_cases hc : rcheck s (rdir ++ [name]) = true
    · simp only [hc, if_true] at h ⊢
      rcases hpf : push_file_to_remote c (rremove s (rdir ++ [name])) rdir name
        with ⟨acts, s1, e1⟩
      rw [hpf] at h
      cases e1 with
      | some err => exact Option.noConfusion h
      | none =>
        have hok := push_file_ok c (rremove s (rdir ++ [name])) rdir name (by rw [hpf])
        rw [hpf] at hok
        have hacts : acts = [PAction.upload (rdir ++ [name])] :=
          congrArg (fun t => t.1) hok
        subst hacts
        exact ClobberOnly.cl _ _ (ih s1 ldir rdir h)
    · simp only [hc, Bool.false_eq_true, if_false] at h ⊢
      rcases hpf : push_file_to_remote c s rdir name with ⟨acts, s1, e1⟩
      rw [hpf] at h
      cases e1 with
      | some err => exact Option.noConfusion h
      | none =>
        have hok := push_file_ok c s rdir name (by rw [hpf])
        rw [hpf] at hok
        have hacts : acts = [PAction.upload (rdir ++ [name])] :=
          congrArg (fun t => t.1) hok
        subst hacts
        exact ClobberOnly.up _ _ (ih s1 ldir rdir h)
  | case3 name sub rest ihsub ih =>
    intro s ldir rdir h
    simp only [push_records, push_directory_to_remote] at h ⊢
    rcases hens : ensure_remote_dir c s (rdir ++ [name]) with ⟨actsE, sE, eE⟩
    rw [hens] at h
    cases eE with
    | some err => exact Option.noConfusion h
    | none =>
      dsimp only at h ⊢
      rcases hsub : push_records c sE (ldir ++ [name]) (rdir ++ [name]) sub
        with ⟨actsS, sS, eS⟩
      rw [hsub] at h
      cases eS with
      | some err => exact Option.noConfusion h
      | none =>
        dsimp only at h ⊢
        have hS : ClobberOnly actsS := by
          have h1 := ihsub sE (ldir ++ [name]) (rdir ++ [name]) (by rw [hsub])
          rw [hsub] at h1
          exact h1
        have hT := ih sS ldir rdir h
        have hensok := ensure_ok c s (rdir ++ [name]) (by rw [hens])
        rw [hens] at hensok
        rcases hensok with ⟨_, _, heq⟩ | ⟨_, _, heq⟩
        · have hE : actsE = [PAction.mkdir (rdir ++ [name])] :=
            congrArg (fun t => t.1) heq
          subst hE
          exact ClobberOnly.mk _ _ (ClobberOnly.append hS hT)
        · have hE : actsE = [] := congrArg (fun t => t.1) heq
          subst hE
          exact ClobberOnly.append hS hT

/-- A push that completes without error uploads every file below the local
tree — there is no skip-if-unchanged path. -/
theorem push_records_uploads (c : PushCtx) (children : List (String × LEntry)) :
    ∀ (s : RState) (ldir rdir : List String),
      (push_records c s ldir rdir children).2.2 = none →
      ∀ p, p ∈ filePaths children →
        PAction.upload (rdir ++ p) ∈ (push_records c s ldir rdir children).1 := by
  induction children using filePaths.induct with
  | case1 => intro s ldir rdir h p hp; simp [filePaths] at hp
  | case2 name rest ih =>
    intro s ldir rdir h p hp
    rw [filePaths, List.mem_cons] at hp
    simp only [push_records] at h ⊢
    by_cases hc : rcheck s (rdir ++ [name]) = true
    · simp only [hc, if_true] at h ⊢
      rcases hpf : push_file_to_remote c (rremove s (rdir ++ [name])) rdir name
        with ⟨acts, s1, e1⟩
      rw [hpf] at h
      cases e1 with
      | some err => exact Option.noConfusion h
      | none =>
        have hok := push_file_ok c (rremove s (rdir ++ [name])) rdir name (by rw [hpf])
        rw [hpf] at hok
        have hacts : acts = [PAction.upload (rdir ++ [name])] :=
          congrArg (fun t => t.1) hok
        subst hacts
        rcases hp with hp | hp
        · subst hp
          exact List.mem_cons_of_mem _ (List.mem_cons_self _ _)
        · exact List.mem_cons_of_mem _
            (List.mem_cons_of_mem _ (ih s1 ldir rdir h p hp))
    · simp only [hc, Bool.false_eq_true, if_false] at h ⊢
      rcases hpf : push_file_to_remote c s rdir name with ⟨acts, s1, e1⟩
      rw [hpf] at h
      cases e1 with
      | some err => exact Option.noConfusion h
      | none =>
        have hok := push_file_ok c s rdir name (by rw [hpf])
        rw [hpf] at hok
        have hacts : acts = [PAction.upload (rdir ++ [name])] :=
          congrArg (fun t => t.1) hok
        subst hacts
        rcases hp with hp | hp
        · subst hp
          exact List.mem_cons_self _ _
        · exact List.mem_cons_of_mem _ (ih s1 ldir rdir h p hp)
  | case3 name sub rest ihsub ih =>
    intro s ldir rdir h p hp
    rw [filePaths, List.mem_append] at hp
    simp only [push_records, push_directory_to_remote] at h ⊢
    rcases hens : ensure_remote_dir c s (rdir ++ [name]) with ⟨actsE, sE, eE⟩
    rw [hens] at h
    cases eE with
    | some err => exact Option.noConfusion h
    | none =>
      dsimp only at h ⊢
      rcases hsub : push_records c sE (ldir ++ [name]) (rdir ++ [name]) sub
        with ⟨actsS, sS, eS⟩
      rw [hsub] at h
      cases eS with
      | some err => exact Option.noConfusion h
      | none =>
        dsimp only at h ⊢
        rcases hp with hp | hp
        · rcases List.mem_map.mp hp with ⟨p', hp', rfl⟩
          have hmem : PAction.upload ((rdir ++ [name]) ++ p') ∈ actsS := by
            have h1 := ihsub sE (ldir ++ [name]) (rdir ++ [name]) (by rw [hsub]) p' hp'
            rw [hsub] at h1
            exact h1
          have : rdir ++ name :: p' = (rdir ++ [name]) ++ p' := by simp
          rw [this]
          exact List.mem_append.mpr (Or.inl (List.mem_append.mpr (Or.inr hmem)))
        · exact List.mem_append.mpr (Or.inr (ih sS ldir rdir h p hp))

/-- A push that completes without error on a tree with distinct names per
level cleans every remote record that already occupied the target path of
one of its files. -/
theorem push_records_cleans (c : PushCtx) (children : List (String × LEntry)) :
    ∀ (s : RState) (ldir rdir : List String),
      (push_records c s ldir rdir children).2.2 = none →
      nodupNames children = true →
      ∀ p, p ∈ filePaths children → rcheck s (rdir ++ p) = true →
        PAction.clean (rdir ++ p) ∈ (push_records c s ldir rdir children).1 := by
  induction children using filePaths.induct with
  | case1 => intro s ldir rdir h hnd p hp; simp [filePaths] at hp
  | case2 name rest ih =>
    intro s ldir rdir h hnd p hp hck
    simp only [nodupNames, Bool.and_eq_true, Bool.not_eq_true'] at hnd
    obtain ⟨hany, hndrest⟩ := hnd
    rw [filePaths, List.mem_cons] at hp
    simp only [push_records] at h ⊢
    rcases hp with hp | hp
    · subst hp
      simp only [hck, if_true] at h ⊢
      rcases hpf : push_file_to_remote c (rremove s (rdir ++ [name])) rdir name
        with ⟨acts, s1, e1⟩
      rw [hpf] at h
      cases e1 with
      | some err => exact Option.noConfusion h
      | none => exact List.mem_cons_self _ _
    · obtain ⟨n0, t0, e0, rfl, hmem0⟩ := filePaths_head rest p hp
      have hn0 : n0 ≠ name := by
        intro hEq
        have := List.any_eq_false.mp hany (n0, e0) hmem0
        simp [hEq] at this
      have hpathne : rdir ++ (n0 :: t0) ≠ rdir ++ [name] := by
        intro hEq
        have h2 := List.append_cancel_left hEq
        injection h2 with h3 h4
        exact hn0 h3
      by_cases hc : rcheck s (rdir ++ [name]) = true
      · simp only [hc, if_true] at h ⊢
        rcases hpf : push_file_to_remote c (rremove s (rdir ++ [name])) rdir name
          with ⟨acts, s1, e1⟩
        rw [hpf] at h
        cases e1 with
        | some err => exact Option.noConfusion h
        | none =>
          have hok := push_file_ok c (rremove s (rdir ++ [name])) rdir name (by rw [hpf])
          rw [hpf] at hok
          have hs1 : s1 = rupload (rremove s (rdir ++ [name])) (rdir ++ [name]) :=
            congrArg (fun t => t.2.1) hok
          have hck1 : rcheck s1 (rdir ++ (n0 :: t0)) = true := by
            rw [rcheck] at hck ⊢
            rw [hs1, lookup_rupload, if_neg hpathne, lookup_rremove, if_neg hpathne]
            exact hck
          exact List.mem_cons_of_mem _
            (List.mem_append.mpr (Or.inr (ih s1 ldir rdir h hndrest _ hp hck1)))
      · simp only [hc, Bool.false_eq_true, if_false] at h ⊢
        rcases hpf : push_file_to_remote c s rdir name with ⟨acts, s1, e1⟩
        rw [hpf] at h
        cases e1 with
        | some err => exact Option.noConfusion h
        | none =>
          have hok := push_file_ok c s rdir name (by rw [hpf])
          rw [hpf] at hok
          have hs1 : s1 = rupload s (rdir ++ [name]) :=
            congrArg (fun t => t.2.1) hok
          have hck1 : rcheck s1 (rdir ++ (n0 :: t0)) = true := by
            rw [rcheck] at hck ⊢
            rw [hs1, lookup_rupload, if_neg hpathne]
            exact hck
          exact List.mem_append.mpr (Or.inr (ih s1 ldir rdir h hndrest _ hp hck1))
  | case3 name sub rest ihsub ih =>
    intro s ldir rdir h hnd p hp hck
    simp only [nodupNames, Bool.and_eq_true, Bool.not_eq_true'] at hnd
    obtain ⟨⟨hndsub, hany⟩, hndrest⟩ := hnd
    rw [filePaths, List.mem_append] at hp
    simp only [push_records, push_directory_to_remote] at h ⊢
    rcases hens : ensure_remote_dir c s (rdir ++ [name]) with ⟨actsE, sE, eE⟩
    rw [hens] at h
    cases eE with
    | some err => exact Option.noConfusion h
    | none =>
      dsimp only at h ⊢
      rcases hsub : push_records c sE (ldir ++ [name]) (rdir ++ [name]) sub
        with ⟨actsS, sS, eS⟩
      rw [hsub] at h
      cases eS with
      | some err => exact Option.noConfusion h
      | none =>
        dsimp only at h ⊢
        rcases hp with hp | hp
        · rcases List.mem_map.mp hp with ⟨p', hp', rfl⟩
          have hp'nil := filePaths_ne_nil sub p' hp'
          have hpne : (rdir ++ [name]) ++ p' ≠ rdir ++ [name] := by
            intro hEq
            have hlen := congrArg List.length hEq
            simp only [List.length_append] at hlen
            have : p'.length = 0 := by omega
            exact hp'nil (List.eq_nil_of_length_eq_zero this)
          have heqp : rdir ++ (name :: p') = (rdir ++ [name]) ++ p' := by simp
          have hckE : rcheck sE ((rdir ++ [name]) ++ p') = true := by
            have h1 := ensure_state c s (rdir ++ [name]) ((rdir ++ [name]) ++ p') hpne
            rw [hens] at h1
            rw [rcheck] at hck ⊢
            rw [show List.lookup ((rdir ++ [name]) ++ p') sE
                = List.lookup ((rdir ++ [name]) ++ p') (actsE, sE, Option.none).2.1
              from rfl]
            rw [h1, ← heqp]
            exact hck
          have hcl : PAction.clean ((rdir ++ [name]) ++ p') ∈ actsS := by
            have h1 := ihsub sE (ldir ++ [name]) (rdir ++ [name]) (by rw [hsub])
              hndsub p' hp' hckE
            rw [hsub] at h1
            exact h1
          rw [heqp]
          exact List.mem_append.mpr (Or.inl (List.mem_append.mpr (Or.inr hcl)))
        · obtain ⟨n0, t0, e0, rfl, hmem0⟩ := filePaths_head rest p hp
          have hn0 : n0 ≠ name := by
            intro hEq
            have := List.any_eq_false.mp hany (n0, e0) hmem0
            simp [hEq] at this
          have hnpre : ¬ (rdir ++ [name]) <+: rdir ++ (n0 :: t0) := by
            intro hpre
            rw [List.prefix_append_right_inj, List.cons_prefix_cons] at hpre
            exact hn0 hpre.1.symm
          have hne' : rdir ++ (n0 :: t0) ≠ rdir ++ [name] := by
            intro hEq
            exact hnpre (hEq ▸ List.prefix_refl _)
          have hckS : rcheck sS (rdir ++ (n0 :: t0)) = true := by
            have h1 := push_records_untouched c sub sE (ldir ++ [name]) (rdir ++ [name])
              (rdir ++ (n0 :: t0))
              (fun n e hn hpre => hnpre
                ((List.prefix_append (rdir ++ [name]) [n]).trans hpre))
            rw [hsub] at h1
            have h2 := ensure_state c s (rdir ++ [name]) (rdir ++ (n0 :: t0)) hne'
            rw [hens] at h2
            rw [rcheck] at hck ⊢
            rw [show List.lookup (rdir ++ (n0 :: t0)) sS
                = List.lookup (rdir ++ (n0 :: t0)) (actsS, sS, Option.none).2.1
              from rfl]
            rw [h1]
            rw [show List.lookup (rdir ++ (n0 :: t0)) sE
                = List.lookup (rdir ++ (n0 :: t0)) (actsE, sE, Option.none).2.1
              from rfl]
            rw [h2]
            exact hck
          exact List.mem_append.mpr (Or.inr (ih sS ldir rdir h hndrest _ hp hckS))

/-- C6: the remote-target handling of `push_directory_to_remote`: a missing
remote target is created as a directory — the action trace starts with its
`mkdir` — and a remote target occupied by a non-directory record is a
conflict: the push fails with `FileExistsError` having performed no action
at all, in particular before any upload attempt. -/
theorem push_remote_target_conflict (c : PushCtx) (s : RState)
    (ldir rdir : List String) (children : List (String × LEntry)) :
    (rcheck s rdir = false → c.mkdirRaises rdir = false →
      ∃ rest, (push_directory_to_remote c s ldir rdir children).1
          = PAction.mkdir rdir :: rest) ∧
    (rcheck s rdir = true → ris_dir s rdir = false →
      push_directory_to_remote c s ldir rdir children
        = ([], s, some (PushErr.fileExists rdir))) := by
  constructor
  · intro hc hm
    simp only [push_directory_to_remote, ensure_remote_dir]
    rw [if_pos hc, if_neg (by simp [hm])]
    exact ⟨(push_records c (rmkdir s rdir) ldir rdir children).1, rfl⟩
  · intro hc hd
    simp only [push_directory_to_remote, ensure_remote_dir]
    rw [if_neg (by simp [hc]), if_neg (by simp [hd])]

/-- C7: a push that completes without error on a local tree whose names are
distinct per level uploads every file below the tree unconditionally (no
skip-if-unchanged), cleans every remote record that already occupied a
file's target path before re-uploading it (the clobber), and performs
deletions only in that clobber position: the action following any `clean` is
always the `upload` of the same path.  Subdirectories are handled by the
depth-first recursion of `push_directory_to_remote` itself. -/
theorem push_mirrors_tree (c : PushCtx) (s : RState) (ldir rdir : List String)
    (children : List (String × LEntry))
    (hok : (push_directory_to_remote c s ldir rdir children).2.2 = none)
    (hnd : nodupNames children = true) :
    (∀ p, p ∈ filePaths children →
      PAction.upload (rdir ++ p)
        ∈ (push_directory_to_remote c s ldir rdir children).1) ∧
    (∀ p, p ∈ filePaths children → rcheck s (rdir ++ p) = true →
      PAction.clean (rdir ++ p)
        ∈ (push_directory_to_remote c s ldir rdir children).1) ∧
    (∀ (i : Nat) (q : List String),
      (push_directory_to_remote c s ldir rdir children).1.get? i
          = some (PAction.clean q) →
      (push_directory_to_remote c s ldir rdir children).1.get? (i + 1)
          = some (PAction.upload q)) := by
  simp only [push_directory_to_remote] at hok ⊢
  rcases hens : ensure_remote_dir c s rdir with ⟨actsE, sE, eE⟩
  rw [hens] at hok
  cases eE with
  | some err => exact Option.noConfusion hok
  | none =>
    dsimp only at hok ⊢
    rcases hrec : push_records c sE ldir rdir children with ⟨actsR, sR, eR⟩
    rw [hrec] at hok
    cases eR with
    | some err => exact Option.noConfusion hok
    | none =>
      dsimp only
      have hrecok : (push_records c sE ldir rdir children).2.2 = none := by rw [hrec]
      have hco : ClobberOnly actsR := by
        have h1 := push_records_clobber c children sE ldir rdir hrecok
        rw [hrec] at h1
        exact h1
      have hensok := ensure_ok c s rdir (by rw [hens])
      rw [hens] at hensok
      refine ⟨?_, ?_, ?_⟩
      · intro p hp
        have h1 := push_records_uploads c children sE ldir rdir hrecok p hp
        rw [hrec] at h1
        exact List.mem_append.mpr (Or.inr h1)
      · intro p hp hck
        have hpnil := filePaths_ne_nil children p hp
        have hne : rdir ++ p ≠ rdir := by
          intro hEq
          have hlen := congrArg List.length hEq
          simp only [List.length_append] at hlen
          exact hpnil (List.eq_nil_of_length_eq_zero (by omega))
        have hckE : rcheck sE (rdir ++ p) = true := by
          have h2 := ensure_state c s rdir (rdir ++ p) hne
          rw [hens] at h2
          rw [rcheck] at hck ⊢
          rw [show List.lookup (rdir ++ p) sE
              = List.lookup (rdir ++ p) (actsE, sE, Option.none).2.1 from rfl, h2]
          exact hck
        have h1 := push_records_cleans c children sE ldir rdir hrecok hnd p hp hckE
        rw [hrec] at h1
        exact List.mem_append.mpr (Or.inr h1)
      · have hcoAll : ClobberOnly (actsE ++ actsR) := by
          rcases hensok with ⟨_, _, heq⟩ | ⟨_, _, heq⟩
          · have hE : actsE = [PAction.mkdir rdir] := congrArg (fun t => t.1) heq
            subst hE
            exact ClobberOnly.mk _ _ hco
          · have hE : actsE = [] := congrArg (fun t => t.1) heq
            subst hE
            exact hco
        exact fun i q => hcoAll.get_clean i q

/-- C6, witnessed: a missing remote target gets created — the trace starts
with its `mkdir` — and pushing a local directory holding one file onto a
remote target occupied by a plain file fails with `FileExistsError` before
any action. -/
theorem push_remote_target_conflict_witness :
    (∃ rest, (push_directory_to_remote (PushCtx.mk (fun _ => false) (fun _ => false))
        [] ["l"] ["r"] [("f", LEntry.file)]).1 = PAction.mkdir ["r"] :: rest) ∧
    push_directory_to_remote (PushCtx.mk (fun _ => false) (fun _ => false))
        [(["r"], false)] ["l"] ["r"] [("f", LEntry.file)]
      = ([], [(["r"], false)], some (PushErr.fileExists ["r"])) :=
  ⟨(push_remote_target_conflict (PushCtx.mk (fun _ => false) (fun _ => false))
      [] ["l"] ["r"] [("f", LEntry.file)]).1 rfl rfl,
   (push_remote_target_conflict (PushCtx.mk (fun _ => false) (fun _ => false))
      [(["r"], false)] ["l"] ["r"] [("f", LEntry.file)]).2 rfl rfl⟩

/-- C7, witnessed on a two-record tree pushed onto a remote that already
holds a file at `r/f`: the nested file `d/g` is uploaded, the occupied path
`r/f` is cleaned, and the action after that clean is its re-upload. -/
theorem push_mirrors_tree_witness :
    PAction.upload (["r"] ++ ["d", "g"])
        ∈ (push_directory_to_remote (PushCtx.mk (fun _ => false) (fun _ => false))
            [(["r"], true), (["r", "f"], false)] ["l"] ["r"]
            [("f", LEntry.file), ("d", LEntry.dir [("g", LEntry.file)])]).1 ∧
    PAction.clean (["r"] ++ ["f"])
        ∈ (push_directory_to_remote (PushCtx.mk (fun _ => false) (fun _ => false))
            [(["r"], true), (["r", "f"], false)] ["l"] ["r"]
            [("f", LEntry.file), ("d", LEntry.dir [("g", LEntry.file)])]).1 ∧
    (push_directory_to_remote (PushCtx.mk (fun _ => false) (fun _ => false))
        [(["r"], true), (["r", "f"], false)] ["l"] ["r"]
        [("f", LEntry.file), ("d", LEntry.dir [("g", LEntry.file)])]).1.get? 1
      = some (PAction.upload ["r", "f"]) := by
  have h := push_mirrors_tree (PushCtx.mk (fun _ => false) (fun _ => false))
      [(["r"], true), (["r", "f"], false)] ["l"] ["r"]
      [("f", LEntry.file), ("d", LEntry.dir [("g", LEntry.file)])]
      (by simp [push_directory_to_remote, push_records, push_file_to_remote,
        ensure_remote_dir, rcheck, ris_dir, rremove, rmkdir, rupload, List.lookup])
      (by simp [nodupNames])
  refine ⟨h.1 ["d", "g"] (by simp [filePaths]), h.2.1 ["f"] (by simp [filePaths]) rfl,
    h.2.2 0 ["r", "f"] ?_⟩
  simp [push_directory_to_remote, push_records, push_file_to_remote,
    ensure_remote_dir, rcheck, ris_dir, rremove, rmkdir, rupload, List.lookup]

end LcMacroPipeline
